import Mathlib

/-!
Verification of the candid field-name recovery and result-normalization
engine of the `home_assistant_identity` repository.

Shallow embedding of:
- `src/actor_controller/actor.py` (class `ICActor`: `_candid_hash`,
  `_strip_candid_comments`, `_iter_balanced_blocks`, `_build_field_hash_map`,
  `_rehydrate_hashed_keys`, `_unwrap_unit_variants_inplace`,
  `_convert_principals_inplace`, `call_method`), and
- `src/ic_identity/home_identity/utils/parsers/subacount_parsers.py`
  (`_parse_opt_blob_to_hex`, `parse_subaccount_to_text_py`,
  `convert_subaccounts_inplace`, `transform_login_result`).

Python text is modelled over `List Char` (the repository's interface texts are
ASCII); machine integers are `Nat` with explicit masking/mod; Python
exceptions are modelled with `Except String`; in-place mutation of a tree is
modelled by a function returning the final state of the mutated argument.
-/

namespace HAI

/-- The characters Python's `\s` regex class matches (ASCII range):
space, tab, newline, carriage return, form feed, vertical tab. -/
def isSpaceChar (c : Char) : Bool :=
  c == ' ' || c == '\t' || c == '\n' || c == '\r' || c == Char.ofNat 12 || c == Char.ofNat 11

/-- First character of a bare identifier: `[A-Za-z_]` (regexes in
`_build_field_hash_map`). -/
def isAlphaU (c : Char) : Bool := c.isAlpha || c == '_'

/-- Continuation character of a bare identifier: `[\w-]` (ASCII range). -/
def isWordH (c : Char) : Bool := c.isAlphanum || c == '_' || c == '-'

/-- The `{` character (written via its code point). -/
def lbrace : Char := Char.ofNat 123

/-- The `}` character (written via its code point). -/
def rbrace : Char := Char.ofNat 125

/-- The `"` character (written via its code point). -/
def dquote : Char := Char.ofNat 34

/-- UTF-8 encoding of a single code point, as in Python's `str.encode("utf-8")`. -/
def utf8Bytes (c : Char) : List Nat :=
  let n := c.toNat
  if n < 128 then [n]
  else if n < 2048 then [192 + n / 64, 128 + n % 64]
  else if n < 65536 then [224 + n / 4096, 128 + n / 64 % 64, 128 + n % 64]
  else [240 + n / 262144, 128 + n / 4096 % 64, 128 + n / 64 % 64, 128 + n % 64]

/-- UTF-8 byte sequence of a string (`name.encode("utf-8")`). -/
def utf8OfString (s : String) : List Nat := (s.data.map utf8Bytes).flatten

/-- Source: `ICActor._candid_hash` (actor.py lines 81-86):
`h = 0; for b in name.encode("utf-8"): h = (h * 223 + b) & 0xFFFFFFFF`. -/
def candid_hash (name : String) : Nat :=
  (utf8OfString name).foldl (fun h b => (h * 223 + b) &&& 4294967295) 0

/-- The spec's reference formula (spec section 4.4): fold left over the UTF-8
bytes with `h = (h * 223 + byte) mod 2^32`, starting at `h = 0`. -/
def candidHashSpec (name : String) : Nat :=
  (utf8OfString name).foldl (fun h b => (h * 223 + b) % 4294967296) 0

theorem and_mask_eq_mod (n : Nat) : n &&& 4294967295 = n % 4294967296 := by
  simpa using Nat.and_pow_two_sub_one_eq_mod n 32

/-- C1: the hash function of the code (`_candid_hash`, a fold with bitwise
masking) equals the reference fold of the spec (`(h * 223 + byte) mod 2^32`
over the UTF-8 bytes, starting at 0), and the empty string hashes to 0.
Determinism and totality hold because `candid_hash` is a total Lean function
of the string alone. -/
theorem candid_hash_matches_reference :
    (∀ name : String, candid_hash name = candidHashSpec name) ∧ candid_hash "" = 0 := by
  constructor
  · intro name
    simp only [candid_hash, candidHashSpec, and_mask_eq_mod]
  · rfl

/-! ### Decimal strings

`int(k[1:])` / `str.isdigit` on the hashed-key suffix, and the hash-encoded
key form `"_<decimal hash>"` used on the wire. -/

/-- A decimal digit character. -/
def digitChar (d : Nat) : Char := Char.ofNat (48 + d)

/-- Decimal digits of `n`, most significant first (fuel-based; `fuel > n`
always suffices because each step divides by ten). -/
def decimalAux : Nat → Nat → List Char
  | 0, _ => []
  | fuel + 1, n => if n < 10 then [digitChar n] else decimalAux fuel (n / 10) ++ [digitChar (n % 10)]

/-- Decimal representation of a natural number. -/
def decimalOf (n : Nat) : List Char := decimalAux (n + 1) n

/-- Python `int()` on a string of decimal digits. -/
def parseDigits (l : List Char) : Nat := l.foldl (fun a c => a * 10 + (c.toNat - 48)) 0

/-- Python `str.isdigit` (ASCII range): nonempty and all digits. -/
def pyIsDigitStr (l : List Char) : Bool :=
  match l with
  | [] => false
  | _ => l.all Char.isDigit

theorem parseDigits_append_digit (l : List Char) (c : Char) :
    parseDigits (l ++ [c]) = parseDigits l * 10 + (c.toNat - 48) := by
  simp [parseDigits]

theorem decimalAux_spec : ∀ fuel n, n < fuel →
    parseDigits (decimalAux fuel n) = n ∧
    (decimalAux fuel n).all Char.isDigit = true ∧
    decimalAux fuel n ≠ [] := by
  intro fuel
  induction fuel with
  | zero => intro n h; omega
  | succ f ih =>
      intro n h
      by_cases hn : n < 10
      · refine ⟨?_, ?_, ?_⟩ <;> simp only [decimalAux, if_pos hn]
        · interval_cases n <;> decide
        · interval_cases n <;> decide
        · simp
      · have hdiv : n / 10 < f := by
          have h1 : n / 10 < n := Nat.div_lt_self (by omega) (by omega)
          omega
        obtain ⟨hparse, hdig, _⟩ := ih (n / 10) hdiv
        refine ⟨?_, ?_, ?_⟩ <;> simp only [decimalAux, if_neg hn]
        · rw [parseDigits_append_digit, hparse]
          have hc : (digitChar (n % 10)).toNat - 48 = n % 10 := by
            have hm : n % 10 < 10 := Nat.mod_lt _ (by omega)
            revert hm
            generalize n % 10 = m
            intro hm
            interval_cases m <;> decide
          rw [hc]
          omega
        · rw [List.all_append, hdig]
          have hd2 : (digitChar (n % 10)).isDigit = true := by
            have hm : n % 10 < 10 := Nat.mod_lt _ (by omega)
            revert hm
            generalize n % 10 = m
            intro hm
            interval_cases m <;> decide
          simp [hd2]
        · simp

theorem parseDigits_decimalOf (n : Nat) : parseDigits (decimalOf n) = n :=
  (decimalAux_spec (n + 1) n (by omega)).1

theorem decimalOf_isDigit (n : Nat) : pyIsDigitStr (decimalOf n) = true := by
  obtain ⟨_, hdig, hne⟩ := decimalAux_spec (n + 1) n (by omega)
  unfold pyIsDigitStr decimalOf at *
  cases h : decimalAux (n + 1) n with
  | nil => exact absurd h hne
  | cons c rest => rw [h] at hdig; exact hdig

/-! ### Association lists

Python `dict` is modelled as an association list with unique keys in insertion
order: assignment to an existing key replaces the value at its original
position; assignment to a fresh key appends. -/

/-- `d.get(k)` on an association list. -/
def alLookup {α β : Type} [DecidableEq α] : List (α × β) → α → Option β
  | [], _ => none
  | (k2, v) :: rest, k => if k2 = k then some v else alLookup rest k

/-- `d[k] = v` on an association list (replace at original position, else
append), matching CPython dict assignment order semantics. -/
def alInsert {α β : Type} [DecidableEq α] : List (α × β) → α → β → List (α × β)
  | [], k, v => [(k, v)]
  | (k2, v2) :: rest, k, v =>
      if k2 = k then (k2, v) :: rest else (k2, v2) :: alInsert rest k v

/-- Build a dict from a sequence of key/value assignments, first to last. -/
def alBuild {α β : Type} [DecidableEq α] (ps : List (α × β)) : List (α × β) :=
  ps.foldl (fun m p => alInsert m p.1 p.2) []

/-- Keys are pairwise distinct (Bool-valued so concrete instances evaluate). -/
def keysUniqueB {α β : Type} [BEq α] : List (α × β) → Bool
  | [] => true
  | (k, _) :: rest => !(rest.any (fun p => p.1 == k)) && keysUniqueB rest

theorem alLookup_alInsert_self {α β : Type} [DecidableEq α]
    (l : List (α × β)) (k : α) (v : β) : alLookup (alInsert l k v) k = some v := by
  induction l with
  | nil => simp [alInsert, alLookup]
  | cons p rest ih =>
      obtain ⟨k2, v2⟩ := p
      by_cases h : k2 = k
      · simp [alInsert, alLookup, h]
      · simp [alInsert, alLookup, h, ih]

theorem alLookup_alInsert_ne {α β : Type} [DecidableEq α]
    (l : List (α × β)) (k k2 : α) (v : β) (h : k ≠ k2) :
    alLookup (alInsert l k v) k2 = alLookup l k2 := by
  induction l with
  | nil => simp [alInsert, alLookup, h]
  | cons p rest ih =>
      obtain ⟨k3, v3⟩ := p
      by_cases h3 : k3 = k
      · subst h3
        simp [alInsert, alLookup, h]
      · simp [alInsert, alLookup, h3, ih]

theorem mem_alInsert {α β : Type} [DecidableEq α]
    (l : List (α × β)) (k : α) (v : β) (q : α × β) (hq : q ∈ alInsert l k v) :
    q ∈ l ∨ q = (k, v) := by
  induction l with
  | nil => simp [alInsert] at hq; simp [hq]
  | cons p rest ih =>
      obtain ⟨k2, v2⟩ := p
      by_cases h : k2 = k
      · simp only [alInsert, if_pos h] at hq
        rcases List.mem_cons.mp hq with h2 | h2
        · right; rw [h2, h]
        · left; exact List.mem_cons_of_mem _ h2
      · simp only [alInsert, if_neg h] at hq
        rcases List.mem_cons.mp hq with h2 | h2
        · left; exact h2 ▸ List.mem_cons_self _ _
        · rcases ih h2 with h3 | h3
          · left; exact List.mem_cons_of_mem _ h3
          · right; exact h3

theorem foldl_alInsert_pred {α β : Type} [DecidableEq α] (P : α × β → Prop) :
    ∀ (ps : List (α × β)) (acc : List (α × β)), (∀ p ∈ ps, P p) → (∀ q ∈ acc, P q) →
    ∀ q ∈ ps.foldl (fun m p => alInsert m p.1 p.2) acc, P q := by
  intro ps
  induction ps with
  | nil => intro acc _ hacc q hq; exact hacc q hq
  | cons p rest ih =>
      intro acc hps hacc q hq
      refine ih (alInsert acc p.1 p.2) (fun r hr => hps r (List.mem_cons_of_mem _ hr)) ?_ q hq
      intro r hr
      rcases mem_alInsert acc p.1 p.2 r hr with h | h
      · exact hacc r h
      · rw [h]; exact hps p (List.mem_cons_self _ _)

theorem alBuild_pred {α β : Type} [DecidableEq α]
    (P : α × β → Prop) (ps : List (α × β)) (hps : ∀ p ∈ ps, P p) :
    ∀ q ∈ alBuild ps, P q :=
  foldl_alInsert_pred P ps [] hps (by simp)

/-! ### Value trees

The dynamically-typed Python trees produced by candid decoding: dicts with
string keys, lists, and the scalar leaves the pipeline distinguishes
(`None`, bool, int, str, `bytes`, `ic.principal.Principal`). -/

inductive Value : Type where
  | null : Value
  | bool (b : Bool) : Value
  | int (n : Int) : Value
  | str (s : String) : Value
  | bytes (bs : List Nat) : Value
  | principal (t : String) : Value
  | list (xs : List Value) : Value
  | dict (entries : List (String × Value)) : Value

/-- Structural induction over `Value` with membership hypotheses for the
nested lists. -/
theorem value_ind (P : Value → Prop)
    (h0 : P .null) (h1 : ∀ b, P (.bool b)) (h2 : ∀ n, P (.int n))
    (h3 : ∀ s, P (.str s)) (h4 : ∀ bs, P (.bytes bs)) (h5 : ∀ t, P (.principal t))
    (h6 : ∀ xs, (∀ x ∈ xs, P x) → P (.list xs))
    (h7 : ∀ es, (∀ e ∈ es, P e.2) → P (.dict es)) :
    ∀ v, P v :=
  @Value.rec P (fun xs => ∀ x ∈ xs, P x) (fun es => ∀ e ∈ es, P e.2) (fun e => P e.2)
    h0 h1 h2 h3 h4 h5 h6 h7
    (fun x hx => absurd hx (List.not_mem_nil x))
    (fun hd tl hh ht x hx => by
      rcases List.mem_cons.mp hx with h | h
      · exact h ▸ hh
      · exact ht x h)
    (fun e he => absurd he (List.not_mem_nil e))
    (fun hd tl hh ht e he => by
      rcases List.mem_cons.mp he with h | h
      · exact h ▸ hh
      · exact ht e h)
    (fun f s hs => hs)

/-! `wfV`: all dicts in a tree have pairwise-distinct keys — true of every
tree that a Python dict structure can denote. -/

mutual

def wfV : Value → Bool
  | .list xs => wfL xs
  | .dict es => keysUniqueB es && wfD es
  | _ => true

def wfL : List Value → Bool
  | [] => true
  | x :: xs => wfV x && wfL xs

def wfD : List (String × Value) → Bool
  | [] => true
  | (_, v) :: es => wfV v && wfD es

end

/-! ### Tree rehydrator

Source: `ICActor._rehydrate_hashed_keys` (actor.py lines 144-165). A key is
renamed when it starts with `"_"`, its suffix is all digits (`str.isdigit`),
and the parsed hash is in the table with a truthy (nonempty) name. The new
dict is rebuilt by successive assignments, so two keys that rehydrate to the
same name collapse into one entry (last value wins). -/

def rehydrateKey (table : List (Nat × String)) (k : String) : String :=
  match k.data with
  | c :: rest =>
      if c == '_' && pyIsDigitStr rest then
        match alLookup table (parseDigits rest) with
        | some nm => if nm == "" then k else nm
        | none => k
      else k
  | [] => k

mutual

def rehydrateV (table : List (Nat × String)) : Value → Value
  | .list xs => .list (rehydrateL table xs)
  | .dict es => .dict (alBuild (rehydrateD table es))
  | v => v

def rehydrateL (table : List (Nat × String)) : List Value → List Value
  | [] => []
  | x :: xs => rehydrateV table x :: rehydrateL table xs

def rehydrateD (table : List (Nat × String)) :
    List (String × Value) → List (String × Value)
  | [] => []
  | (k, v) :: es => (rehydrateKey table k, rehydrateV table v) :: rehydrateD table es

end

/-! ### Unit-variant collapser

Source: `ICActor._unwrap_unit_variants_inplace` (actor.py lines 167-186),
modelled as the final state of the mutated argument. A one-entry dict whose
value is `None` becomes the marker dict `{"__unit__": key}`; a parent dict
replaces a child slot that holds such a marker by the bare key; lists only
recurse into their elements (no slot substitution), and the caller of the
transform performs no substitution on the top-level node. -/

/-- The parent-slot substitution: replace `{"__unit__": m}` by `m`. -/
def markerSubst : Value → Value
  | .dict [(k, m)] => if k == "__unit__" then m else .dict [(k, m)]
  | v => v

mutual

def unwrapV : Value → Value
  | .dict [(k, .null)] => .dict [("__unit__", .str k)]
  | .dict es => .dict (unwrapD es)
  | .list xs => .list (unwrapL xs)
  | v => v

def unwrapL : List Value → List Value
  | [] => []
  | x :: xs => unwrapV x :: unwrapL xs

def unwrapD : List (String × Value) → List (String × Value)
  | [] => []
  | (k, v) :: es => (k, markerSubst (unwrapV v)) :: unwrapD es

end

/-! ### Principal-to-text normalizer

Source: `ICActor._convert_principals_inplace` (actor.py lines 188-205), in
the environment where the principal library is importable (`ICPrincipal` is
not `None`; otherwise the function is the identity). -/

mutual

def principalsV : Value → Value
  | .principal t => .str t
  | .list xs => .list (principalsL xs)
  | .dict es => .dict (principalsD es)
  | v => v

def principalsL : List Value → List Value
  | [] => []
  | x :: xs => principalsV x :: principalsL xs

def principalsD : List (String × Value) → List (String × Value)
  | [] => []
  | (k, v) :: es => (k, principalsV v) :: principalsD es

end

/-! `deepcopyV`: `copy.deepcopy` on a tree — rebuild every container;
immutable scalars are shared, which is observationally the same value. -/

mutual

def deepcopyV : Value → Value
  | .list xs => .list (deepcopyL xs)
  | .dict es => .dict (deepcopyD es)
  | v => v

def deepcopyL : List Value → List Value
  | [] => []
  | x :: xs => deepcopyV x :: deepcopyL xs

def deepcopyD : List (String × Value) → List (String × Value)
  | [] => []
  | (k, v) :: es => (k, deepcopyV v) :: deepcopyD es

end

theorem deepcopyL_eq : ∀ xs : List Value, (∀ x ∈ xs, deepcopyV x = x) → deepcopyL xs = xs := by
  intro xs
  induction xs with
  | nil => intro _; rfl
  | cons x rest ihr =>
      intro ih
      simp only [deepcopyL]
      rw [ih x (List.mem_cons_self _ _), ihr (fun y hy => ih y (List.mem_cons_of_mem _ hy))]

theorem deepcopyD_eq : ∀ es : List (String × Value),
    (∀ e ∈ es, deepcopyV e.2 = e.2) → deepcopyD es = es := by
  intro es
  induction es with
  | nil => intro _; rfl
  | cons e rest ihr =>
      intro ih
      obtain ⟨k, v⟩ := e
      have h2 : deepcopyV v = v := ih (k, v) (List.mem_cons_self _ _)
      simp only [deepcopyD]
      rw [h2, ihr (fun y hy => ih y (List.mem_cons_of_mem _ hy))]

theorem deepcopy_eq : ∀ v, deepcopyV v = v := by
  intro v
  induction v using value_ind with
  | h0 => rfl
  | h1 b => rfl
  | h2 n => rfl
  | h3 s => rfl
  | h4 bs => rfl
  | h5 t => rfl
  | h6 xs ih =>
      simp only [deepcopyV]
      rw [deepcopyL_eq xs ih]
  | h7 es ih =>
      simp only [deepcopyV]
      rw [deepcopyD_eq es ih]

/-! ### Blob-to-hex normalizer

Source: `subacount_parsers.py`. Python exceptions are modelled with
`Except String`; `bytes(...)` fails on any element that is not an int (bools
count as ints) in `0..255`. -/

/-- Python truthiness of a tree node (`if not opt_blob`). -/
def truthy : Value → Bool
  | .null => false
  | .bool b => b
  | .int n => n != 0
  | .str s => s != ""
  | .bytes bs => !bs.isEmpty
  | .principal _ => true
  | .list xs => !xs.isEmpty
  | .dict es => !es.isEmpty

/-- `isinstance(x, int)` — `bool` is a subclass of `int` in Python. -/
def isIntLike : Value → Bool
  | .int _ => true
  | .bool _ => true
  | _ => false

/-- The byte a list element contributes under `bytes(...)`, if valid. -/
def byteVal : Value → Option Nat
  | .int n => if 0 ≤ n && n < 256 then some n.toNat else none
  | .bool b => some (if b then 1 else 0)
  | _ => none

/-- `bytes(blob)`: all elements must be ints in range. -/
def bytesOfList : List Value → Option (List Nat)
  | [] => some []
  | x :: xs =>
      match byteVal x, bytesOfList xs with
      | some b, some bs => some (b :: bs)
      | _, _ => none

/-- Uppercase hexadecimal digit. -/
def hexDigit (d : Nat) : Char := if d < 10 then Char.ofNat (48 + d) else Char.ofNat (55 + d)

/-- `bytes(...).hex().upper()`: two uppercase hex digits per byte. -/
def hexUpper (bs : List Nat) : String :=
  String.mk ((bs.map (fun b => [hexDigit (b / 16), hexDigit (b % 16)])).flatten)

/-- Source: `parse_subaccount_to_text_py` (subacount_parsers.py lines 30-35):
`bytes(value).hex().upper()`, raising on invalid byte values. -/
def parse_subaccount_to_text_py (xs : List Value) : Except String String :=
  match bytesOfList xs with
  | some bs => .ok (hexUpper bs)
  | none => .error "bytes() argument invalid"

/-- Source: `_parse_opt_blob_to_hex` (subacount_parsers.py lines 8-28).
Falsy input yields `""`; a one-element list holding a list is converted with
`bytes(...)`, falling back on exception to `parse_subaccount_to_text_py`,
which re-raises on the same bad input (an uncaught exception); a flat list of
ints is converted directly (uncaught exception when out of range); anything
else yields `""`. -/
def parse_opt_blob_to_hex (v : Value) : Except String String :=
  if !truthy v then .ok ""
  else
    match v with
    | .list [.list blob] =>
        (match bytesOfList blob with
         | some bs => .ok (hexUpper bs)
         | none => parse_subaccount_to_text_py blob)
    | .list xs =>
        if xs.all isIntLike then
          match bytesOfList xs with
          | some bs => .ok (hexUpper bs)
          | none => .error "bytes() argument invalid"
        else .ok ""
    | _ => .ok ""

/-- `_SUBACCOUNT_KEYS` (subacount_parsers.py line 39). -/
def subaccountKeys : List String := ["icpDefaultSubaccount", "businessDefaultSubaccount"]

/-! `convertSubV`: source `convert_subaccounts_inplace` (subacount_parsers.py
lines 41-55), as the final state of the mutated argument; an uncaught
exception from `_parse_opt_blob_to_hex` propagates. Values under subaccount
keys are replaced (not recursed into); other dict values and list elements
are recursed into. -/

mutual

def convertSubV : Value → Except String Value
  | .list xs =>
      match convertSubL xs with
      | .ok ys => .ok (.list ys)
      | .error e => .error e
  | .dict es =>
      match convertSubD es with
      | .ok fs => .ok (.dict fs)
      | .error e => .error e
  | v => .ok v

def convertSubL : List Value → Except String (List Value)
  | [] => .ok []
  | x :: xs =>
      match convertSubV x with
      | .ok y =>
          match convertSubL xs with
          | .ok ys => .ok (y :: ys)
          | .error e => .error e
      | .error e => .error e

def convertSubD : List (String × Value) → Except String (List (String × Value))
  | [] => .ok []
  | (k, v) :: es =>
      if subaccountKeys.contains k then
        match parse_opt_blob_to_hex v with
        | .ok s =>
            match convertSubD es with
            | .ok fs => .ok ((k, Value.str s) :: fs)
            | .error e => .error e
        | .error e => .error e
      else
        match convertSubV v with
        | .ok w =>
            match convertSubD es with
            | .ok fs => .ok ((k, w) :: fs)
            | .error e => .error e
        | .error e => .error e

end

/-- Source: `transform_login_result` (subacount_parsers.py lines 57-64).
With `inplace=False` (the default at every call site) the conversion runs on
a `copy.deepcopy` of the argument, so the argument itself is never mutated;
the transformed copy (or the propagating exception) is the result. -/
def transform_login_result (data : Value) (inplace : Bool) : Except String Value :=
  if inplace then convertSubV data else convertSubV (deepcopyV data)

/-! ### Comment stripper

Source: `_strip_candid_comments` (actor.py lines 22-26) and the identical
`strip_candid_comments` (candid_parser_helpers.py lines 3-7):
`re.sub(r"//.*?$", "", src, flags=re.M)` followed by
`re.sub(r"/\*.*?\*/", "", src, flags=re.S)`. The first pass removes from
each `//` to the end of its line (the newline survives); the second removes
from each `/*` to the nearest following `*/` inclusive (newlines inside are
removed; a `/*` with no later `*/` is left in place). -/

/-- Line-comment pass as a three-state scanner: state 0 = plain text,
state 1 = just saw a `/`, state 2 = inside a `//` comment. -/
def lsA : Nat → List Char → List Char
  | 0, [] => []
  | 1, [] => ['/']
  | _, [] => []
  | 0, c :: r => if c == '/' then lsA 1 r else c :: lsA 0 r
  | 1, c :: r => if c == '/' then lsA 2 r else '/' :: c :: lsA 0 r
  | _, c :: r => if c == '\n' then '\n' :: lsA 0 r else lsA 2 r

/-- `re.sub(r"//.*?$", "", src, flags=re.M)`. -/
def lineStrip (s : List Char) : List Char := lsA 0 s

/-- The suffix just after the nearest `*/`, if any. -/
def findCloseCmt : List Char → Option (List Char)
  | [] => none
  | c :: r =>
      match r with
      | c2 :: r2 => if c == '*' && c2 == '/' then some r2 else findCloseCmt r
      | [] => none

/-- `re.sub(r"/\*.*?\*/", "", src, flags=re.S)` (fuel-based; fuel ≥ length
suffices since every step consumes at least one character). A `/*` whose
nearest `*/` exists is removed with everything in between, and scanning
resumes after the `*/`; a `/*` with no later `*/` matches nothing and the
remainder is kept verbatim. -/
def blockStripF : Nat → List Char → List Char
  | 0, l => l
  | _ + 1, [] => []
  | fuel + 1, c :: r =>
      match r with
      | c2 :: r2 =>
          if c == '/' && c2 == '*' then
            match findCloseCmt r2 with
            | some rest2 => blockStripF fuel rest2
            | none => c :: r
          else c :: blockStripF fuel r
      | [] => [c]

def blockStrip (s : List Char) : List Char := blockStripF (s.length + 1) s

/-- Source: `_strip_candid_comments` — the line pass runs first, then the
block pass. -/
def strip_candid_comments (s : List Char) : List Char := blockStrip (lineStrip s)

/-! ### Balanced-block extractor

Source: `_iter_balanced_blocks` (actor.py lines 28-57) and the identical
`iter_balanced_blocks` (candid_parser_helpers.py). -/

/-- `src.find(kw)`: index of the first occurrence of `kw`, scanning
position by position. -/
def findIdx (kw : List Char) : List Char → Option Nat
  | [] => if kw.isEmpty then some 0 else none
  | c :: rest =>
      if kw.isPrefixOf (c :: rest) then some 0
      else (findIdx kw rest).map (· + 1)

/-- Brace scan of the block body: collect characters until the `}` that
closes the block (depth counting), returning the inner text and the suffix
after the closing brace; `none` when the input ends first. -/
def scanBraces : Nat → List Char → List Char → Option (List Char × List Char)
  | _, [], _ => none
  | depth, c :: rest, acc =>
      if c == lbrace then scanBraces (depth + 1) rest (acc ++ [c])
      else if c == rbrace then
        match depth with
        | 0 => some (acc, rest)
        | d + 1 => scanBraces d rest (acc ++ [c])
      else scanBraces depth rest (acc ++ [c])

/-- One outer-loop pass of `_iter_balanced_blocks` (fuel-based; every
iteration advances at least one character, so `length + 1` fuel suffices).
After a keyword occurrence: skip whitespace; if the next character is not an
opening brace (or the input ends), resume scanning just past the keyword
occurrence; otherwise collect the balanced body and continue after it. A
truncated block (unbalanced braces) silently terminates the sequence. -/
def iterBlocksF (kw : List Char) : Nat → List Char → List (List Char)
  | 0, _ => []
  | fuel + 1, src =>
      match findIdx kw src with
      | none => []
      | some j =>
          let rest2 := ((src.drop j).drop kw.length).dropWhile isSpaceChar
          match rest2 with
          | c :: inner =>
              if c == lbrace then
                match scanBraces 0 inner [] with
                | some (body, rem) => body :: iterBlocksF kw fuel rem
                | none => []
              else iterBlocksF kw fuel (src.drop (j + 1))
          | [] => iterBlocksF kw fuel (src.drop (j + 1))

def iterBlocks (kw : List Char) (src : List Char) : List (List Char) :=
  iterBlocksF kw (src.length + 1) src

/-! ### Name harvesters

Source: the `re.finditer` loops of `_build_field_hash_map` (actor.py lines
101-140), implemented as the character-level scans the regexes denote.
A failed match attempt advances one character; a successful match resumes
after its consumed span (lookaheads are not consumed). -/

/-- Record fields: `(?:"([^"]+)"|([A-Za-z_][\w-]*))\s*:` — quoted or bare
name directly followed by optional whitespace and a consumed `:`. -/
def recordNamesF : Nat → List Char → List (List Char)
  | 0, _ => []
  | _ + 1, [] => []
  | fuel + 1, c :: rest =>
      if c == dquote then
        let qname := rest.takeWhile (fun ch => ch != dquote)
        match qname, rest.drop qname.length with
        | [], _ => recordNamesF fuel rest
        | _, _ :: r2 =>
            (match r2.dropWhile isSpaceChar with
             | d :: r4 =>
                 if d == ':' then qname :: recordNamesF fuel r4
                 else recordNamesF fuel rest
             | [] => recordNamesF fuel rest)
        | _, [] => recordNamesF fuel rest
      else if isAlphaU c then
        let run := rest.takeWhile isWordH
        match (rest.drop run.length).dropWhile isSpaceChar with
        | d :: r2 =>
            if d == ':' then (c :: run) :: recordNamesF fuel r2
            else recordNamesF fuel rest
        | [] => recordNamesF fuel rest
      else recordNamesF fuel rest

/-- Characters the variant-alt lookahead `(?=[:},;])` accepts. -/
def isVariantFollow (c : Char) : Bool := c == ':' || c == rbrace || c == ',' || c == ';'

/-- Variant quoted alts: `"([^"]+)"\s*(?=[:},;])` — the lookahead character
is not consumed. -/
def variantQuotedF : Nat → List Char → List (List Char)
  | 0, _ => []
  | _ + 1, [] => []
  | fuel + 1, c :: rest =>
      if c == dquote then
        let qname := rest.takeWhile (fun ch => ch != dquote)
        match qname, rest.drop qname.length with
        | [], _ => variantQuotedF fuel rest
        | _, _ :: r2 =>
            (match r2.dropWhile isSpaceChar with
             | d :: r4 =>
                 if isVariantFollow d then qname :: variantQuotedF fuel (d :: r4)
                 else variantQuotedF fuel rest
             | [] => variantQuotedF fuel rest)
        | _, [] => variantQuotedF fuel rest
      else variantQuotedF fuel rest

/-- Variant bare alts: `([A-Za-z_][\w-]*)\s*(?=[:},;])`. -/
def variantBareF : Nat → List Char → List (List Char)
  | 0, _ => []
  | _ + 1, [] => []
  | fuel + 1, c :: rest =>
      if isAlphaU c then
        let run := rest.takeWhile isWordH
        match (rest.drop run.length).dropWhile isSpaceChar with
        | d :: r2 =>
            if isVariantFollow d then (c :: run) :: variantBareF fuel (d :: r2)
            else variantBareF fuel rest
        | [] => variantBareF fuel rest
      else variantBareF fuel rest

/-- Python `str.strip()` (ASCII whitespace). -/
def pyStrip (l : List Char) : List Char :=
  ((l.dropWhile isSpaceChar).reverse.dropWhile isSpaceChar).reverse

/-- The reserved type keywords excluded from bare variant alts
(actor.py lines 113-117). -/
def reservedWords : List String :=
  ["null", "bool", "text", "blob", "nat", "nat8", "nat16", "nat32", "nat64",
   "int", "int8", "int16", "int32", "int64", "float32", "float64", "principal",
   "vec", "opt", "record", "variant", "service", "func", "oneway"]

/-- `set.add`: the name set is modelled as a first-insertion-ordered
duplicate-free list (CPython set iteration order is unspecified; every
theorem below is independent of the order). -/
def setAdd (s : List String) (n : String) : List String :=
  if s.contains n then s else s ++ [n]

/-- Add each harvested name to the set, subject to the code's guard
(`if nm:` or `if nm and nm not in reserved:`). -/
def addNamesGuard (g : String → Bool) (s : List String) (ns : List String) : List String :=
  ns.foldl (fun s2 n => if g n then setAdd s2 n else s2) s

/-- The `if nm:` guard. -/
def guardNonempty : String → Bool := fun n => n != ""

/-- The `if nm and nm not in reserved:` guard on bare variant alts. -/
def guardBare : String → Bool := fun n => n != "" && !reservedWords.contains n

/-- Names contributed by one `record` block body. -/
def harvestRecord (s : List String) (body : List Char) : List String :=
  addNamesGuard guardNonempty s ((recordNamesF (body.length + 1) body).map String.mk)

/-- Names contributed by one `variant` block body: the quoted (stripped)
alts, then the bare alts with the reserved filter. -/
def harvestVariant (s : List String) (body : List Char) : List String :=
  addNamesGuard guardBare
    (addNamesGuard guardNonempty s
      ((variantQuotedF (body.length + 1) body).map (fun l => String.mk (pyStrip l))))
    ((variantBareF (body.length + 1) body).map String.mk)

/-- Source: the name-collection part of `_build_field_hash_map` (actor.py
lines 101-138): record fields from every `record` block, then quoted
(stripped) and bare (reserved-filtered) alts from every `variant` block,
then the two fixed names `"ok"` and `"err"`. -/
def harvestNames (did_text : String) : List String :=
  let src := strip_candid_comments did_text.data
  let s1 := (iterBlocks ("record".data) src).foldl harvestRecord []
  let s2 := (iterBlocks ("variant".data) src).foldl harvestVariant s1
  setAdd (setAdd s2 "ok") "err"

/-- Source: `_build_field_hash_map` (actor.py lines 101-140):
`{self._candid_hash(n): n for n in names}`. -/
def buildFieldHashMap (did_text : String) : List (Nat × String) :=
  alBuild ((harvestNames did_text).map (fun n => (candid_hash n, n)))

/-! ### Method dispatcher

Source: `call_method` (actor.py lines 209-269, active code lines 237-269).
The transport (`_raw_call`) and the candid decoder (`ic.candid.decode`) are
external collaborators, passed in as parameters; `rtype` models
`return_type or self._extract_return_type(method_name)`. An exception
anywhere inside the `try` block is wrapped by the
`except Exception as e2` handler into
`{"status": "error", "message": f"fallback decode failed: {e2}"}`. -/

/-- The structured error result (actor.py line 269). -/
def errResult (msg : String) : Value :=
  .dict [("status", .str "error"), ("message", .str ("fallback decode failed: " ++ msg))]

/-- The raw-bytes marker result (actor.py line 252). -/
def rawBytesResult (bs : List Nat) : Value :=
  .dict [("status", .str "raw-bytes"), ("bytes", .bytes bs)]

/-- The permissive probe type of actor.py line 249. -/
def probeType : String := "variant \x7b err : reserved; ok : reserved \x7d"

/-- What `_raw_call` produced: candid reply bytes, an already-decoded
structure, or a raised exception. -/
inductive TransportResult : Type where
  | bytesR (bs : List Nat) : TransportResult
  | tree (t : Value) : TransportResult
  | raised (msg : String) : TransportResult

/-- The normalization pipeline applied to a decoded tree (actor.py lines
254-257 and 262-265): rehydrate, unit-variant collapse (in place, final
state of the same variable), `transform_login_result` (default
`inplace=False`), principal conversion. -/
def normalizePipeline (table : List (Nat × String)) (v : Value) : Except String Value :=
  match transform_login_result (unwrapV (rehydrateV table v)) false with
  | .ok r => .ok (principalsV r)
  | .error e => .error e

/-- Source: the active body of `call_method`. `decoder bs t` models
`decode(bs, t)`. -/
def call_method (decoder : List Nat → String → Except String Value)
    (table : List (Nat × String)) (rtype : Option String) :
    TransportResult → Value
  | .raised e => errResult e
  | .tree t =>
      match normalizePipeline table t with
      | .ok r => r
      | .error e => errResult e
  | .bytesR bs =>
      match rtype with
      | some t =>
          match decoder bs t with
          | .ok decoded =>
              (match normalizePipeline table decoded with
               | .ok r => r
               | .error e => errResult e)
          | .error e => errResult e
      | none =>
          match decoder bs probeType with
          | .ok which =>
              (match normalizePipeline table which with
               | .ok r => r
               | .error e => errResult e)
          | .error _ => rawBytesResult bs

/-! ### Theorems for the individual claims -/

/-- The wire's hash-encoded key form: `"_"` followed by the decimal hash
(modelled from the spec's Hashed Key description; the code only recognizes
this form, it never produces it). -/
def hashEnc (h : Nat) : String := String.mk ('_' :: decimalOf h)

/-- The interface text of the C2 scenario. -/
def c2Text : String := "variant \x7b oneOnOne; group : record \x7b title : text \x7d \x7d"

/-- C2 counterexample: on the claim's exact scenario — interface text
`variant { oneOnOne; group : record { title : text } }` and decoded tree
`{"_<hash of oneOnOne>": null}` — the pipeline of `call_method` yields the
marker mapping `{"__unit__": "oneOnOne"}`, not the bare scalar `"oneOnOne"`
(no caller collapses the top level); and a one-entry-marker mapping in a
sequence slot stays a marker mapping rather than becoming its bare key. -/
theorem c2_counterexample :
    normalizePipeline (buildFieldHashMap c2Text)
        (.dict [(hashEnc (candid_hash "oneOnOne"), .null)]) =
      .ok (.dict [("__unit__", .str "oneOnOne")]) ∧
    Value.dict [("__unit__", .str "oneOnOne")] ≠ .str "oneOnOne" ∧
    unwrapV (.list [.dict [("oneOnOne", .null)]]) =
      .list [.dict [("__unit__", .str "oneOnOne")]] ∧
    Value.list [.dict [("__unit__", .str "oneOnOne")]] ≠ .list [.str "oneOnOne"] := by
  refine ⟨by rfl, fun h => Value.noConfusion h, by rfl, fun h => ?_⟩
  rw [Value.list.injEq] at h
  have h2 := List.head_eq_of_cons_eq h
  exact Value.noConfusion h2

/-- C2 amended: on the claim's scenario the pipeline yields the one-entry
marker mapping `{"__unit__": "oneOnOne"}`. The unit-variant collapse
substitutes the bare key only into mapping-value slots: a one-entry-null
mapping nested as a dict value becomes the bare key string there, while the
top-level node and sequence elements are rewritten to (and left as) the
marker mapping, the caller performing no further collapse. -/
theorem c2_amended :
    normalizePipeline (buildFieldHashMap c2Text)
        (.dict [(hashEnc (candid_hash "oneOnOne"), .null)]) =
      .ok (.dict [("__unit__", .str "oneOnOne")]) ∧
    (∀ pk nm : String, unwrapV (.dict [(pk, .dict [(nm, .null)])]) =
      .dict [(pk, .str nm)]) ∧
    (∀ nm : String, unwrapV (.dict [(nm, .null)]) = .dict [("__unit__", .str nm)]) ∧
    (∀ nm : String, unwrapV (.list [.dict [(nm, .null)]]) =
      .list [.dict [("__unit__", .str nm)]]) :=
  ⟨by rfl, fun pk nm => rfl, fun nm => rfl, fun nm => rfl⟩

/-- The two structural probes of `_parse_opt_blob_to_hex`: a one-element
list holding a list, or a list whose elements are all ints. -/
def blobShapeB : Value → Bool
  | .list [.list _] => true
  | .list xs => xs.all isIntLike
  | _ => false

/-- A Python int tree leaf holding the byte value `b`. -/
def intVal (b : Nat) : Value := .int (Int.ofNat b)

theorem byteVal_intVal (b : Nat) (hb : b < 256) : byteVal (intVal b) = some b := by
  have h : (0 ≤ Int.ofNat b && Int.ofNat b < 256) = true := by
    simp only [Bool.and_eq_true, decide_eq_true_eq]
    constructor
    · exact Int.ofNat_nonneg b
    · exact Int.ofNat_lt.mpr hb
  simp only [intVal, byteVal, h, if_true]
  rfl

theorem bytesOfList_map_int : ∀ ns : List Nat, (∀ b ∈ ns, b < 256) →
    bytesOfList (ns.map intVal) = some ns := by
  intro ns
  induction ns with
  | nil => intro _; rfl
  | cons b rest ih =>
      intro h
      have hb := byteVal_intVal b (h b (List.mem_cons_self _ _))
      have hrest := ih (fun x hx => h x (List.mem_cons_of_mem _ hx))
      simp only [List.map_cons, bytesOfList, hb, hrest]

/-- C4 amended: the three golden conversions hold (`[]` to `""`, `[[7]]` to
`"07"`, `[[96,252,6,143]]` to `"60FC068F"`); a flat list of ints 0-255
converts to the same uppercase hex; and every shape matching neither
structural probe yields `""` without an error. What the claim gets wrong:
a shape that does match a probe but contains an out-of-range or non-int
byte value raises instead of yielding `""` (see the counterexample). -/
theorem c4_amended :
    parse_opt_blob_to_hex (.list []) = .ok "" ∧
    parse_opt_blob_to_hex (.list [.list [.int 7]]) = .ok "07" ∧
    parse_opt_blob_to_hex (.list [.list [.int 96, .int 252, .int 6, .int 143]]) =
      .ok "60FC068F" ∧
    (∀ ns : List Nat, (∀ b ∈ ns, b < 256) →
      parse_opt_blob_to_hex (.list (ns.map intVal)) = .ok (hexUpper ns)) ∧
    (∀ v, blobShapeB v = false → parse_opt_blob_to_hex v = .ok "") := by
  refine ⟨by rfl, by rfl, by rfl, ?_, ?_⟩
  · intro ns h
    cases ns with
    | nil => rfl
    | cons b rest =>
        have hbytes := bytesOfList_map_int (b :: rest) h
        have hall : ((rest.map intVal).all isIntLike) = true := by
          simp only [List.all_eq_true]
          intro x hx
          obtain ⟨y, _, hy⟩ := List.mem_map.mp hx
          rw [← hy]
          rfl
        simp only [List.map_cons] at hbytes ⊢
        simp only [intVal] at hbytes hall ⊢
        simp only [parse_opt_blob_to_hex, truthy, List.isEmpty_cons, Bool.not_false,
          Bool.not_true, if_false, List.all_cons, isIntLike, Bool.true_and, hall, if_true]
        rw [hbytes]
        rfl
  · intro v hv
    cases v with
    | null => rfl
    | bool b => cases b <;> rfl
    | int n =>
        unfold parse_opt_blob_to_hex
        split
        · rfl
        · rfl
    | str s =>
        unfold parse_opt_blob_to_hex
        split
        · rfl
        · rfl
    | bytes bs =>
        unfold parse_opt_blob_to_hex
        split
        · rfl
        · rfl
    | principal t => rfl
    | dict es =>
        unfold parse_opt_blob_to_hex
        split
        · rfl
        · rfl
    | list xs =>
        cases xs with
        | nil => rfl
        | cons x rest =>
            cases x with
            | list blob =>
                cases rest with
                | nil => simp [blobShapeB] at hv
                | cons y rest2 => rfl
            | null => rfl
            | str s => rfl
            | bytes bs => rfl
            | principal t => rfl
            | dict es => rfl
            | int n =>
                have hall : ((Value.int n :: rest).all isIntLike) = false := by
                  simpa [blobShapeB] using hv
                simp [parse_opt_blob_to_hex, truthy, hall]
            | bool b =>
                have hall : ((Value.bool b :: rest).all isIntLike) = false := by
                  simpa [blobShapeB] using hv
                simp [parse_opt_blob_to_hex, truthy, hall]

/-- C4 witness: the universally quantified parts of `c4_amended` applied at
the flat blob `[0, 255]` and the non-matching shape `"x"`. -/
theorem c4_witness :
    (∀ b ∈ ([0, 255] : List Nat), b < 256) ∧
    parse_opt_blob_to_hex (.list (([0, 255] : List Nat).map (fun b => .int (Int.ofNat b)))) =
      .ok (hexUpper [0, 255]) ∧
    blobShapeB (.str "x") = false ∧
    parse_opt_blob_to_hex (.str "x") = .ok "" :=
  ⟨by decide, c4_amended.2.2.2.1 [0, 255] (by decide), by rfl,
    c4_amended.2.2.2.2 (.str "x") (by rfl)⟩

/-- C4 counterexample: the wrapped blob `[[300]]` matches the claim's
"any other shape" clause (it is neither `[]`, a valid wrapped byte blob, nor
a flat 0-255 int list), but the code raises a `ValueError` from the doubled
`bytes(...)` call instead of yielding `""`. -/
theorem c4_counterexample :
    parse_opt_blob_to_hex (.list [.list [.int 300]]) = .error "bytes() argument invalid" := by
  rfl

/-- C9 amended: `transform_login_result` with `inplace=False` computes the
conversion of a deep copy that is equal to the argument, and — the pipeline
being pure on the copy — the argument itself is never modified. What the
claim gets wrong: on a tree whose subaccount field holds an out-of-range
byte the call raises instead of returning the transformed copy (see the
counterexample); the argument is still left unmodified in that case. -/
theorem c9_amended : ∀ data : Value,
    deepcopyV data = data ∧ transform_login_result data false = convertSubV data := by
  intro data
  refine ⟨deepcopy_eq data, ?_⟩
  simp [transform_login_result, deepcopy_eq]

/-- C9 counterexample: on `{"icpDefaultSubaccount": [[300]]}` the call
raises (propagates the `bytes()` `ValueError`) rather than returning a
transformed deep copy. -/
theorem c9_counterexample :
    transform_login_result (.dict [("icpDefaultSubaccount", .list [.list [.int 300]])]) false =
      .error "bytes() argument invalid" := by
  rfl

/-- A decoder that fails on every declared type but succeeds on the generic
probe type, to exhibit the order of the fallbacks. -/
def c5Dec : List Nat → String → Except String Value :=
  fun _ ty => if ty = probeType then .ok (.str "probe") else .error "boom"

/-- C5 counterexample: with a return type extracted (here `"text"`) whose
decode fails, and a probe decode that would succeed, `call_method` returns
the structured error result — it neither falls back to the probe decode nor
returns the raw bytes, contradicting the claimed fallback chain. -/
theorem c5_counterexample :
    call_method c5Dec [] (some "text") (.bytesR [1, 2]) = errResult "boom" ∧
    errResult "boom" ≠ .str "probe" ∧
    errResult "boom" ≠ rawBytesResult [1, 2] := by
  refine ⟨by rfl, fun h => Value.noConfusion h, fun h => ?_⟩
  rw [errResult, rawBytesResult, Value.dict.injEq] at h
  have h2 := List.head_eq_of_cons_eq h
  rw [Prod.mk.injEq] at h2
  have h3 := h2.2
  rw [Value.str.injEq] at h3
  exact absurd h3 (by decide)

/-- C5 amended: when raw bytes are returned, the dispatcher decodes with the
available return type (provided or extracted); a failing decode with an
available return type is wrapped as a structured error result. The generic
two-armed `{ok, err}` probe decode is attempted only when no return type is
available, and only a failing probe decode returns the raw bytes verbatim
with a marker. A successful decode in either branch feeds the normalization
pipeline. -/
theorem c5_fallback_order : ∀ (dec : List Nat → String → Except String Value)
    (table : List (Nat × String)) (ty e : String) (bs : List Nat),
    (dec bs ty = .error e → call_method dec table (some ty) (.bytesR bs) = errResult e) ∧
    (dec bs probeType = .error e → call_method dec table none (.bytesR bs) = rawBytesResult bs) ∧
    (∀ v r, dec bs ty = .ok v → normalizePipeline table v = .ok r →
      call_method dec table (some ty) (.bytesR bs) = r) ∧
    (∀ v r, dec bs probeType = .ok v → normalizePipeline table v = .ok r →
      call_method dec table none (.bytesR bs) = r) := by
  intro dec table ty e bs
  refine ⟨?_, ?_, ?_, ?_⟩
  · intro h
    simp [call_method, h]
  · intro h
    simp [call_method, h]
  · intro v r h1 h2
    simp [call_method, h1, h2]
  · intro v r h1 h2
    simp [call_method, h1, h2]

/-- C5 witness: the four branch behaviors of `c5_fallback_order` exercised
with concrete decoders. -/
theorem c5_witness :
    ((fun (_ : List Nat) (_ : String) => (Except.error "x" : Except String Value)) [] "t" =
      .error "x") ∧
    call_method (fun _ _ => .error "x") [] (some "t") (.bytesR []) = errResult "x" ∧
    call_method (fun _ _ => .error "x") [] none (.bytesR []) = rawBytesResult [] ∧
    ((fun (_ : List Nat) (_ : String) => (Except.ok Value.null : Except String Value)) [] "t" =
      .ok Value.null) ∧
    normalizePipeline [] Value.null = .ok Value.null ∧
    call_method (fun _ _ => .ok Value.null) [] (some "t") (.bytesR []) = Value.null :=
  ⟨rfl,
    (c5_fallback_order (fun _ _ => .error "x") [] "t" "x" []).1 rfl,
    (c5_fallback_order (fun _ _ => .error "x") [] "t" "x" []).2.1 rfl,
    rfl, rfl,
    (c5_fallback_order (fun _ _ => .ok Value.null) [] "t" "x" []).2.2.1 Value.null
      Value.null rfl rfl⟩

/-- C6 counterexample: a normalized value can be byte-for-byte identical to
the structured error shape, so the three claimed outcome shapes are not
disjoint: the tree `{"status": "error", "message": "fallback decode failed:
boom"}` passes through the pipeline unchanged and equals the error result
produced when the decoder raises `"boom"`. -/
theorem c6_counterexample :
    call_method (fun _ _ => .ok Value.null) [] none (.tree (errResult "boom")) =
      errResult "boom" ∧
    call_method (fun _ _ => .error "boom") [] (some "t") (.bytesR [1]) = errResult "boom" :=
  ⟨by rfl, by rfl⟩

/-- C6 amended: `call_method` is a total function into result values (errors
are wrapped, never thrown): every outcome is a structured error result, the
raw-bytes marker result, or a value produced by the normalization pipeline.
The three shapes are distinguishable except that a normalized value may
itself coincide with the error or raw-bytes shape (see the counterexample). -/
theorem c6_outcome_shapes : ∀ (dec : List Nat → String → Except String Value)
    (table : List (Nat × String)) (rt : Option String) (tr : TransportResult),
    (∃ m, call_method dec table rt tr = errResult m) ∨
    (∃ bs, tr = .bytesR bs ∧ call_method dec table rt tr = rawBytesResult bs) ∨
    (∃ v, normalizePipeline table v = .ok (call_method dec table rt tr)) := by
  intro dec table rt tr
  cases tr with
  | raised e => exact Or.inl ⟨e, rfl⟩
  | tree t =>
      cases h : normalizePipeline table t with
      | ok r =>
          refine Or.inr (Or.inr ⟨t, ?_⟩)
          simp [call_method, h]
      | error e =>
          refine Or.inl ⟨e, ?_⟩
          simp [call_method, h]
  | bytesR bs =>
      cases rt with
      | some ty =>
          cases hd : dec bs ty with
          | ok d =>
              cases h : normalizePipeline table d with
              | ok r =>
                  refine Or.inr (Or.inr ⟨d, ?_⟩)
                  simp [call_method, hd, h]
              | error e =>
                  refine Or.inl ⟨e, ?_⟩
                  simp [call_method, hd, h]
          | error e =>
              refine Or.inl ⟨e, ?_⟩
              simp [call_method, hd]
      | none =>
          cases hd : dec bs probeType with
          | ok d =>
              cases h : normalizePipeline table d with
              | ok r =>
                  refine Or.inr (Or.inr ⟨d, ?_⟩)
                  simp [call_method, hd, h]
              | error e =>
                  refine Or.inl ⟨e, ?_⟩
                  simp [call_method, hd, h]
          | error e =>
              refine Or.inr (Or.inl ⟨bs, rfl, ?_⟩)
              simp [call_method, hd]

/-! ### Field-map invariants (claim C7) -/

theorem any_key_alInsert_false {α β : Type} [DecidableEq α] [BEq α] [LawfulBEq α]
    (l : List (α × β)) (k k2 : α) (v : β)
    (hl : (l.any (fun p => p.1 == k2)) = false) (hk : k ≠ k2) :
    ((alInsert l k v).any (fun p => p.1 == k2)) = false := by
  rw [List.any_eq_false] at hl ⊢
  intro q hq
  rcases mem_alInsert l k v q hq with h | h
  · exact hl q h
  · rw [h]
    simp only [Bool.not_eq_true]
    exact beq_eq_false_iff_ne.mpr hk

theorem keysUniqueB_alInsert {α β : Type} [DecidableEq α] [BEq α] [LawfulBEq α]
    (l : List (α × β)) (k : α) (v : β) (h : keysUniqueB l = true) :
    keysUniqueB (alInsert l k v) = true := by
  induction l with
  | nil => simp [alInsert, keysUniqueB]
  | cons p rest ih =>
      obtain ⟨k2, v2⟩ := p
      simp only [keysUniqueB, Bool.and_eq_true, Bool.not_eq_true'] at h
      by_cases hk : k2 = k
      · subst hk
        simp only [alInsert, if_pos rfl, keysUniqueB, Bool.and_eq_true, Bool.not_eq_true']
        exact h
      · simp only [alInsert, if_neg hk, keysUniqueB, Bool.and_eq_true, Bool.not_eq_true']
        exact ⟨any_key_alInsert_false rest k k2 v h.1 (fun he => hk he.symm), ih h.2⟩

theorem keysUniqueB_foldl_alInsert {α β : Type} [DecidableEq α] [BEq α] [LawfulBEq α] :
    ∀ (ps acc : List (α × β)), keysUniqueB acc = true →
    keysUniqueB (ps.foldl (fun m p => alInsert m p.1 p.2) acc) = true := by
  intro ps
  induction ps with
  | nil => intro acc h; exact h
  | cons p rest ih =>
      intro acc h
      exact ih (alInsert acc p.1 p.2) (keysUniqueB_alInsert acc p.1 p.2 h)

theorem keysUniqueB_alBuild {α β : Type} [DecidableEq α] [BEq α] [LawfulBEq α]
    (ps : List (α × β)) : keysUniqueB (alBuild ps) = true :=
  keysUniqueB_foldl_alInsert ps [] rfl

theorem alLookup_of_mem_unique {α β : Type} [DecidableEq α] [BEq α] [LawfulBEq α] :
    ∀ (l : List (α × β)) (k : α) (v : β), keysUniqueB l = true → (k, v) ∈ l →
    alLookup l k = some v := by
  intro l
  induction l with
  | nil => intro k v _ hm; cases hm
  | cons p rest ih =>
      intro k v hu hm
      obtain ⟨k2, v2⟩ := p
      simp only [keysUniqueB, Bool.and_eq_true, Bool.not_eq_true'] at hu
      rcases List.mem_cons.mp hm with h | h
      · rw [Prod.mk.injEq] at h
        simp [alLookup, h.1.symm, h.2]
      · by_cases hk : k2 = k
        · exfalso
          subst hk
          rw [List.any_eq_false] at hu
          have := hu.1 (k2, v) h
          simp at this
        · simp only [alLookup, if_neg hk]
          exact ih k v hu.2 h

theorem alLookup_mem {α β : Type} [DecidableEq α] :
    ∀ (l : List (α × β)) (k : α) (v : β), alLookup l k = some v → (k, v) ∈ l := by
  intro l
  induction l with
  | nil => intro k v h; cases h
  | cons p rest ih =>
      intro k v h
      obtain ⟨k2, v2⟩ := p
      by_cases hk : k2 = k
      · simp only [alLookup, if_pos hk] at h
        rw [Option.some.injEq] at h
        subst hk
        rw [← h]
        exact List.mem_cons_self _ _
      · simp only [alLookup, if_neg hk] at h
        exact List.mem_cons_of_mem _ (ih k v h)

theorem foldl_alInsert_lookup {α β : Type} [DecidableEq α] :
    ∀ (ps acc : List (α × β)) (k : α) (v : β),
    (∀ p ∈ ps, p.1 = k → p = (k, v)) →
    (alLookup acc k = some v ∨ (k, v) ∈ ps) →
    alLookup (ps.foldl (fun m p => alInsert m p.1 p.2) acc) k = some v := by
  intro ps
  induction ps with
  | nil =>
      intro acc k v _ hd
      rcases hd with h | h
      · exact h
      · cases h
  | cons p rest ih =>
      intro acc k v hp hd
      by_cases hk : p.1 = k
      · have hpv : p = (k, v) := hp p (List.mem_cons_self _ _) hk
        refine ih (alInsert acc p.1 p.2) k v
          (fun q hq hq1 => hp q (List.mem_cons_of_mem _ hq) hq1) (Or.inl ?_)
        rw [hpv]
        exact alLookup_alInsert_self acc k v
      · refine ih (alInsert acc p.1 p.2) k v
          (fun q hq hq1 => hp q (List.mem_cons_of_mem _ hq) hq1) ?_
        rcases hd with h | h
        · left
          rw [alLookup_alInsert_ne acc p.1 k p.2 hk]
          exact h
        · rcases List.mem_cons.mp h with h2 | h2
          · exact absurd (congrArg Prod.fst h2.symm) hk
          · right; exact h2

theorem foldl_alInsert_lookup_isSome {α β : Type} [DecidableEq α] :
    ∀ (ps acc : List (α × β)) (k : α),
    ((alLookup acc k).isSome = true ∨ ∃ p ∈ ps, p.1 = k) →
    (alLookup (ps.foldl (fun m p => alInsert m p.1 p.2) acc) k).isSome = true := by
  intro ps
  induction ps with
  | nil =>
      intro acc k hd
      rcases hd with h | ⟨p, hp, _⟩
      · exact h
      · cases hp
  | cons p rest ih =>
      intro acc k hd
      by_cases hk : p.1 = k
      · refine ih (alInsert acc p.1 p.2) k (Or.inl ?_)
        rw [hk, alLookup_alInsert_self acc k p.2]
        rfl
      · refine ih (alInsert acc p.1 p.2) k ?_
        rcases hd with h | ⟨q, hq, hq1⟩
        · left
          rw [alLookup_alInsert_ne acc p.1 k p.2 hk]
          exact h
        · rcases List.mem_cons.mp hq with h2 | h2
          · exact absurd (h2 ▸ hq1) hk
          · exact Or.inr ⟨q, h2, hq1⟩

theorem mem_setAdd_self (s : List String) (n : String) : n ∈ setAdd s n := by
  unfold setAdd
  split
  · next h => exact List.elem_iff.mp h
  · exact List.mem_append_right _ (List.mem_singleton.mpr rfl)

theorem mem_setAdd_of_mem (s : List String) (n m : String) (h : m ∈ s) : m ∈ setAdd s n := by
  unfold setAdd
  split
  · exact h
  · exact List.mem_append_left _ h

theorem mem_setAdd_cases (s : List String) (n m : String) (h : m ∈ setAdd s n) :
    m ∈ s ∨ m = n := by
  unfold setAdd at h
  split at h
  · exact Or.inl h
  · rcases List.mem_append.mp h with h2 | h2
    · exact Or.inl h2
    · exact Or.inr (List.mem_singleton.mp h2)

theorem ok_mem_harvestNames (t : String) : "ok" ∈ harvestNames t :=
  mem_setAdd_of_mem _ _ _ (mem_setAdd_self _ _)

theorem err_mem_harvestNames (t : String) : "err" ∈ harvestNames t :=
  mem_setAdd_self _ _

/-- C7: for every interface text, every entry of the built hash table has
key equal to the hash of its name; keys are pairwise distinct (a hash
collision leaves exactly one of the colliding names in the table, and every
harvested name's hash is present as a key); and when no harvested name
collides with `"ok"` (resp. `"err"`), the table maps `hash("ok")` to `"ok"`
(resp. `hash("err")` to `"err"`). -/
theorem c7_field_map_invariant : ∀ text : String,
    (∀ p ∈ buildFieldHashMap text, p.1 = candid_hash p.2) ∧
    keysUniqueB (buildFieldHashMap text) = true ∧
    (∀ n ∈ harvestNames text,
      (alLookup (buildFieldHashMap text) (candid_hash n)).isSome = true) ∧
    ((∀ n ∈ harvestNames text, candid_hash n = candid_hash "ok" → n = "ok") →
      alLookup (buildFieldHashMap text) (candid_hash "ok") = some "ok") ∧
    ((∀ n ∈ harvestNames text, candid_hash n = candid_hash "err" → n = "err") →
      alLookup (buildFieldHashMap text) (candid_hash "err") = some "err") := by
  intro text
  refine ⟨?_, ?_, ?_, ?_, ?_⟩
  · refine alBuild_pred _ _ ?_
    intro p hp
    obtain ⟨n, _, hn⟩ := List.mem_map.mp hp
    rw [← hn]
  · exact keysUniqueB_alBuild _
  · intro n hn
    refine foldl_alInsert_lookup_isSome _ [] (candid_hash n) (Or.inr ?_)
    exact ⟨(candid_hash n, n), List.mem_map.mpr ⟨n, hn, rfl⟩, rfl⟩
  · intro hcoll
    refine foldl_alInsert_lookup _ [] (candid_hash "ok") "ok" ?_ (Or.inr ?_)
    · intro p hp hp1
      obtain ⟨n, hn, hn2⟩ := List.mem_map.mp hp
      rw [← hn2] at hp1 ⊢
      rw [hcoll n hn hp1]
    · exact List.mem_map.mpr ⟨"ok", ok_mem_harvestNames text, rfl⟩
  · intro hcoll
    refine foldl_alInsert_lookup _ [] (candid_hash "err") "err" ?_ (Or.inr ?_)
    · intro p hp hp1
      obtain ⟨n, hn, hn2⟩ := List.mem_map.mp hp
      rw [← hn2] at hp1 ⊢
      rw [hcoll n hn hp1]
    · exact List.mem_map.mpr ⟨"err", err_mem_harvestNames text, rfl⟩

/-- C7 witness: the invariants at the interface text
`record { name : text }`, whose five harvested names are collision-free. -/
theorem c7_witness :
    (∀ n ∈ harvestNames "record \x7b name : text \x7d",
      candid_hash n = candid_hash "ok" → n = "ok") ∧
    (∀ n ∈ harvestNames "record \x7b name : text \x7d",
      candid_hash n = candid_hash "err" → n = "err") ∧
    alLookup (buildFieldHashMap "record \x7b name : text \x7d") (candid_hash "ok") =
      some "ok" ∧
    alLookup (buildFieldHashMap "record \x7b name : text \x7d") (candid_hash "err") =
      some "err" ∧
    keysUniqueB (buildFieldHashMap "record \x7b name : text \x7d") = true := by
  refine ⟨by decide, by decide, ?_, ?_, ?_⟩
  · exact (c7_field_map_invariant "record \x7b name : text \x7d").2.2.2.1 (by decide)
  · exact (c7_field_map_invariant "record \x7b name : text \x7d").2.2.2.2 (by decide)
  · exact (c7_field_map_invariant "record \x7b name : text \x7d").2.1

/-! ### Rehydration round-trip (claim C3) -/

theorem build_entries_hash (text : String) :
    ∀ p ∈ buildFieldHashMap text, p.1 = candid_hash p.2 := by
  refine alBuild_pred _ _ ?_
  intro p hp
  obtain ⟨n, _, hn⟩ := List.mem_map.mp hp
  rw [← hn]

theorem addNamesGuard_pred (P : String → Prop) (g : String → Bool)
    (hg : ∀ n, g n = true → P n) :
    ∀ (ns s : List String), (∀ m ∈ s, P m) → ∀ m ∈ addNamesGuard g s ns, P m := by
  intro ns
  induction ns with
  | nil => intro s hs m hm; exact hs m hm
  | cons n rest ih =>
      intro s hs m hm
      refine ih (if g n then setAdd s n else s) ?_ m hm
      intro m2 hm2
      by_cases hgn : g n = true
      · rw [if_pos hgn] at hm2
        rcases mem_setAdd_cases _ _ _ hm2 with h | h
        · exact hs m2 h
        · rw [h]; exact hg n hgn
      · rw [if_neg hgn] at hm2
        exact hs m2 hm2

theorem foldl_preserve_names {γ : Type} (P : String → Prop)
    (f : List String → γ → List String)
    (hf : ∀ s x, (∀ m ∈ s, P m) → ∀ m ∈ f s x, P m) :
    ∀ (l : List γ) (s : List String), (∀ m ∈ s, P m) → ∀ m ∈ l.foldl f s, P m := by
  intro l
  induction l with
  | nil => intro s hs m hm; exact hs m hm
  | cons x rest ih =>
      intro s hs m hm
      exact ih (f s x) (hf s x hs) m hm

theorem harvestNames_ne_empty (t : String) : ∀ n ∈ harvestNames t, n ≠ "" := by
  have hrec : ∀ s body, (∀ m ∈ s, m ≠ "") → ∀ m ∈ harvestRecord s body, m ≠ "" := by
    intro s body hs
    exact addNamesGuard_pred _ guardNonempty (fun n h => bne_iff_ne.mp h) _ s hs
  have hvar : ∀ s body, (∀ m ∈ s, m ≠ "") → ∀ m ∈ harvestVariant s body, m ≠ "" := by
    intro s body hs
    refine addNamesGuard_pred _ guardBare
      (fun n h => by
        rw [guardBare, Bool.and_eq_true] at h
        exact bne_iff_ne.mp h.1) _ _ ?_
    exact addNamesGuard_pred _ guardNonempty (fun n h => bne_iff_ne.mp h) _ s hs
  intro n hn
  have hn2 : n ∈ setAdd (setAdd
      ((iterBlocks ("variant".data) (strip_candid_comments t.data)).foldl harvestVariant
        ((iterBlocks ("record".data) (strip_candid_comments t.data)).foldl harvestRecord []))
      "ok") "err" := hn
  rcases mem_setAdd_cases _ _ _ hn2 with h | h
  · rcases mem_setAdd_cases _ _ _ h with h2 | h2
    · refine foldl_preserve_names _ harvestVariant hvar _ _ ?_ n h2
      refine foldl_preserve_names _ harvestRecord hrec _ _ ?_
      intro m hm
      cases hm
    · rw [h2]; decide
  · rw [h]; decide

theorem build_values_ne_empty (text : String) :
    ∀ p ∈ buildFieldHashMap text, p.2 ≠ "" := by
  refine alBuild_pred _ _ ?_
  intro p hp
  obtain ⟨n, hn, hn2⟩ := List.mem_map.mp hp
  rw [← hn2]
  exact harvestNames_ne_empty text n hn

theorem rehydrateKey_nil (k : String) : rehydrateKey [] k = k := by
  rw [rehydrateKey.eq_def]
  rcases hk : k.data with _ | ⟨c, rest⟩
  · rfl
  · simp [alLookup]

theorem rehydrateKey_enc (T : List (Nat × String)) (h : Nat) (nm : String)
    (hl : alLookup T h = some nm) (hne : nm ≠ "") :
    rehydrateKey T (hashEnc h) = nm := by
  have h1 : pyIsDigitStr (decimalOf h) = true := decimalOf_isDigit h
  have h2 : (nm == "") = false := beq_eq_false_iff_ne.mpr hne
  rw [rehydrateKey.eq_def]
  have hd : (hashEnc h).data = '_' :: decimalOf h := rfl
  rw [hd]
  simp [h1, parseDigits_decimalOf, hl, h2]

theorem rehydrateD_map_enc (T : List (Nat × String)) (vf : Nat × String → Value) :
    ∀ M : List (Nat × String), (∀ p ∈ M, rehydrateKey T (hashEnc p.1) = p.2) →
    rehydrateD T (M.map (fun p => (hashEnc p.1, vf p))) =
      M.map (fun p => (p.2, rehydrateV T (vf p))) := by
  intro M
  induction M with
  | nil => intro _; rfl
  | cons p rest ih =>
      intro h
      simp only [List.map_cons, rehydrateD]
      rw [h p (List.mem_cons_self _ _), ih (fun q hq => h q (List.mem_cons_of_mem _ hq))]

theorem keysUniqueB_map_values (M : List (Nat × String)) (f : Nat × String → Value)
    (hu : keysUniqueB M = true) (hh : ∀ p ∈ M, p.1 = candid_hash p.2) :
    keysUniqueB (M.map (fun p => (p.2, f p))) = true := by
  induction M with
  | nil => rfl
  | cons p rest ih =>
      obtain ⟨h, nm⟩ := p
      simp only [keysUniqueB, Bool.and_eq_true, Bool.not_eq_true'] at hu
      simp only [List.map_cons, keysUniqueB, Bool.and_eq_true, Bool.not_eq_true']
      constructor
      · rw [List.any_eq_false]
        intro q hq
        obtain ⟨p2, hp2, hq2⟩ := List.mem_map.mp hq
        rw [← hq2]
        simp only [Bool.not_eq_true]
        rw [beq_eq_false_iff_ne]
        intro heq
        have h1 : p2.1 = candid_hash p2.2 := hh p2 (List.mem_cons_of_mem _ hp2)
        have h2 : h = candid_hash nm := hh (h, nm) (List.mem_cons_self _ _)
        rw [heq, ← h2] at h1
        rw [List.any_eq_false] at hu
        have h3 := hu.1 p2 hp2
        rw [h1] at h3
        simp at h3
      · exact ih hu.2 (fun q hq => hh q (List.mem_cons_of_mem _ hq))

theorem alInsert_fresh {α β : Type} [DecidableEq α] :
    ∀ (l : List (α × β)) (k : α) (v : β), (∀ q ∈ l, q.1 ≠ k) →
    alInsert l k v = l ++ [(k, v)] := by
  intro l
  induction l with
  | nil => intro k v _; rfl
  | cons p rest ih =>
      intro k v hq
      obtain ⟨k2, v2⟩ := p
      have hne : k2 ≠ k := hq (k2, v2) (List.mem_cons_self _ _)
      simp only [alInsert, if_neg hne, List.cons_append]
      rw [ih k v (fun q hq2 => hq q (List.mem_cons_of_mem _ hq2))]

theorem foldl_alInsert_fresh {α β : Type} [DecidableEq α] [BEq α] [LawfulBEq α] :
    ∀ (ps acc : List (α × β)), keysUniqueB ps = true →
    (∀ p ∈ ps, ∀ q ∈ acc, q.1 ≠ p.1) →
    ps.foldl (fun m p => alInsert m p.1 p.2) acc = acc ++ ps := by
  intro ps
  induction ps with
  | nil => intro acc _ _; simp
  | cons p rest ih =>
      intro acc hu hfresh
      simp only [keysUniqueB, Bool.and_eq_true, Bool.not_eq_true'] at hu
      have hstep : alInsert acc p.1 p.2 = acc ++ [p] := by
        rw [alInsert_fresh acc p.1 p.2 (hfresh p (List.mem_cons_self _ _))]
      simp only [List.foldl_cons, hstep]
      rw [ih (acc ++ [p]) hu.2 ?_]
      · simp
      · intro p2 hp2 q hq
        rcases List.mem_append.mp hq with h | h
        · exact hfresh p2 (List.mem_cons_of_mem _ hp2) q h
        · rw [List.mem_singleton.mp h]
          rw [List.any_eq_false] at hu
          have h2 := hu.1 p2 hp2
          rw [Bool.not_eq_true] at h2
          intro heq
          rw [heq] at h2
          simp at h2

theorem alBuild_eq_self {α β : Type} [DecidableEq α] [BEq α] [LawfulBEq α]
    (ps : List (α × β)) (hu : keysUniqueB ps = true) : alBuild ps = ps := by
  have h := foldl_alInsert_fresh ps [] hu (by intro p _ q hq; cases hq)
  simpa [alBuild] using h

theorem wfL_forall : ∀ xs : List Value, wfL xs = true → ∀ x ∈ xs, wfV x = true := by
  intro xs
  induction xs with
  | nil => intro _ x hx; cases hx
  | cons y rest ih =>
      intro h x hx
      simp only [wfL, Bool.and_eq_true] at h
      rcases List.mem_cons.mp hx with h2 | h2
      · rw [h2]; exact h.1
      · exact ih h.2 x h2

theorem wfD_forall : ∀ es : List (String × Value), wfD es = true → ∀ e ∈ es, wfV e.2 = true := by
  intro es
  induction es with
  | nil => intro _ e he; cases he
  | cons p rest ih =>
      intro h e he
      obtain ⟨k, v⟩ := p
      simp only [wfD, Bool.and_eq_true] at h
      rcases List.mem_cons.mp he with h2 | h2
      · rw [h2]; exact h.1
      · exact ih h.2 e h2

theorem rehydrateL_nil_id : ∀ xs : List Value,
    (∀ x ∈ xs, rehydrateV [] x = x) → rehydrateL [] xs = xs := by
  intro xs
  induction xs with
  | nil => intro _; rfl
  | cons x rest ih =>
      intro h
      simp only [rehydrateL]
      rw [h x (List.mem_cons_self _ _), ih (fun y hy => h y (List.mem_cons_of_mem _ hy))]

theorem rehydrateD_nil_id : ∀ es : List (String × Value),
    (∀ e ∈ es, rehydrateV [] e.2 = e.2) → rehydrateD [] es = es := by
  intro es
  induction es with
  | nil => intro _; rfl
  | cons p rest ih =>
      intro h
      obtain ⟨k, v⟩ := p
      have h2 : rehydrateV [] v = v := h (k, v) (List.mem_cons_self _ _)
      simp only [rehydrateD]
      rw [rehydrateKey_nil, h2, ih (fun y hy => h y (List.mem_cons_of_mem _ hy))]

theorem rehydrate_empty_id : ∀ v, wfV v = true → rehydrateV [] v = v := by
  intro v
  induction v using value_ind with
  | h0 => intro _; rfl
  | h1 b => intro _; rfl
  | h2 n => intro _; rfl
  | h3 s => intro _; rfl
  | h4 bs => intro _; rfl
  | h5 t => intro _; rfl
  | h6 xs ih =>
      intro hw
      have hw2 : wfL xs = true := by simpa [wfV] using hw
      simp only [rehydrateV]
      rw [rehydrateL_nil_id xs (fun x hx => ih x hx (wfL_forall xs hw2 x hx))]
  | h7 es ih =>
      intro hw
      have hw2 : keysUniqueB es = true ∧ wfD es = true := by
        simpa [wfV, Bool.and_eq_true] using hw
      simp only [rehydrateV]
      rw [rehydrateD_nil_id es (fun e he => ih e he (wfD_forall es hw2.2 e he)),
        alBuild_eq_self es hw2.1]

/-- C3: (i) for every interface text, rehydrating a mapping whose keys are
exactly the hash-encoded forms of every name in the built table (with
arbitrary values) restores every original name exactly — the result is the
mapping whose keys are the table's names, entry for entry; (ii) rehydrating
any well-formed tree (every mapping of the tree has distinct keys, as every
Python dict does) with an empty table is the identity transform. -/
theorem c3_rehydrate_roundtrip :
    (∀ (text : String) (vf : Nat × String → Value),
      rehydrateV (buildFieldHashMap text)
        (.dict ((buildFieldHashMap text).map (fun p => (hashEnc p.1, vf p)))) =
      .dict ((buildFieldHashMap text).map
        (fun p => (p.2, rehydrateV (buildFieldHashMap text) (vf p))))) ∧
    (∀ v, wfV v = true → rehydrateV [] v = v) := by
  constructor
  · intro text vf
    have hu : keysUniqueB (buildFieldHashMap text) = true := keysUniqueB_alBuild _
    have henc : ∀ p ∈ buildFieldHashMap text,
        rehydrateKey (buildFieldHashMap text) (hashEnc p.1) = p.2 := by
      intro p hp
      refine rehydrateKey_enc _ p.1 p.2 ?_ (build_values_ne_empty text p hp)
      exact alLookup_of_mem_unique _ p.1 p.2 hu hp
    simp only [rehydrateV]
    rw [rehydrateD_map_enc _ vf _ henc,
      alBuild_eq_self _ (keysUniqueB_map_values _ _ hu (build_entries_hash text))]
  · exact rehydrate_empty_id

/-- C3 witness: the round trip at the interface text `record { name : text }`
with null values, and the empty-table identity on a concrete well-formed
tree. -/
theorem c3_witness :
    rehydrateV (buildFieldHashMap "record \x7b name : text \x7d")
        (.dict ((buildFieldHashMap "record \x7b name : text \x7d").map
          (fun p => (hashEnc p.1, Value.null)))) =
      .dict ((buildFieldHashMap "record \x7b name : text \x7d").map
        (fun p => (p.2, Value.null))) ∧
    wfV (.dict [("_99", .list [.int 5]), ("b", .null)]) = true ∧
    rehydrateV [] (.dict [("_99", .list [.int 5]), ("b", .null)]) =
      .dict [("_99", .list [.int 5]), ("b", .null)] :=
  ⟨c3_rehydrate_roundtrip.1 "record \x7b name : text \x7d" (fun _ => Value.null),
    by rfl,
    c3_rehydrate_roundtrip.2 (.dict [("_99", .list [.int 5]), ("b", .null)]) (by rfl)⟩

/-! ### Comment-stripper properties (claim C8) -/

/-- Number of line breaks in a text. -/
def countNl : List Char → Nat
  | [] => 0
  | c :: r => (if c == '\n' then 1 else 0) + countNl r

/-- Whether the text contains a `//` occurrence (a line-comment opener). -/
def hasTwoSlash : List Char → Bool
  | c :: c2 :: r => (c == '/' && c2 == '/') || hasTwoSlash (c2 :: r)
  | _ => false

/-- Whether the text contains a `/*` occurrence (a block-comment opener). -/
def hasOpenCmt : List Char → Bool
  | c :: c2 :: r => (c == '/' && c2 == '*') || hasOpenCmt (c2 :: r)
  | _ => false

theorem lsA_countNl : ∀ (s : List Char) (st : Nat), countNl (lsA st s) = countNl s := by
  intro s
  induction s with
  | nil =>
      intro st
      rcases st with _ | _ | st <;> rfl
  | cons c r ih =>
      intro st
      rcases st with _ | _ | st
      · by_cases h : c == '/'
        · have hc : c = '/' := by simpa using h
          simp [lsA, h, ih, countNl, hc]
        · simp [lsA, h, ih, countNl]
      · by_cases h : c == '/'
        · have hc : c = '/' := by simpa using h
          simp [lsA, h, ih, countNl, hc]
        · simp [lsA, h, ih, countNl]
      · by_cases h : c == '\n'
        · have hc : c = '\n' := by simpa using h
          simp [lsA, h, ih, countNl, hc]
        · simp [lsA, h, ih, countNl]

theorem hasTwoSlash_cons_of_ne (c : Char) (out : List Char) (hc : (c == '/') = false)
    (hout : hasTwoSlash out = false) : hasTwoSlash (c :: out) = false := by
  cases out with
  | nil => rfl
  | cons d t =>
      rw [hasTwoSlash, Bool.or_eq_false_iff]
      exact ⟨by simp [hc], hout⟩

theorem lsA_noTwoSlash : ∀ (s : List Char) (st : Nat), hasTwoSlash (lsA st s) = false := by
  intro s
  induction s with
  | nil =>
      intro st
      rcases st with _ | _ | st <;> rfl
  | cons c r ih =>
      intro st
      rcases st with _ | _ | st
      · by_cases h : c == '/'
        · simp [lsA, h, ih]
        · rw [show lsA 0 (c :: r) = c :: lsA 0 r by simp [lsA, h]]
          exact hasTwoSlash_cons_of_ne c _ (by simpa using h) (ih 0)
      · by_cases h : c == '/'
        · simp [lsA, h, ih]
        · rw [show lsA 1 (c :: r) = '/' :: c :: lsA 0 r by simp [lsA, h]]
          rw [hasTwoSlash, Bool.or_eq_false_iff]
          refine ⟨by simp [show (c == '/') = false by simpa using h], ?_⟩
          exact hasTwoSlash_cons_of_ne c _ (by simpa using h) (ih 0)
      · by_cases h : c == '\n'
        · have hc : c = '\n' := by simpa using h
          rw [show lsA (st + 2) (c :: r) = '\n' :: lsA 0 r by simp [lsA, h]]
          exact hasTwoSlash_cons_of_ne _ _ (by decide) (ih 0)
        · simp [lsA, h, ih]

theorem findCloseCmt_countNl : ∀ l r : List Char,
    findCloseCmt l = some r → countNl r ≤ countNl l := by
  intro l
  induction l with
  | nil => intro r h; cases h
  | cons c rest ih =>
      intro r h
      cases rest with
      | nil => cases h
      | cons c2 r2 =>
          rw [findCloseCmt] at h
          by_cases hc : (c == '*' && c2 == '/') = true
          · rw [if_pos hc] at h
            rw [Option.some.injEq] at h
            rw [← h]
            simp [countNl]
            omega
          · rw [if_neg hc] at h
            have h2 := ih r h
            show countNl r ≤ (if c == '\n' then 1 else 0) + countNl (c2 :: r2)
            omega

theorem blockStripF_countNl : ∀ (fuel : Nat) (s : List Char),
    countNl (blockStripF fuel s) ≤ countNl s := by
  intro fuel
  induction fuel with
  | zero => intro s; exact Nat.le_refl _
  | succ f ih =>
      intro s
      cases s with
      | nil => exact Nat.le_refl _
      | cons c r =>
          cases r with
          | nil => exact Nat.le_refl _
          | cons c2 r2 =>
              rw [blockStripF]
              by_cases hc : (c == '/' && c2 == '*') = true
              · rw [if_pos hc]
                cases hf : findCloseCmt r2 with
                | some rest2 =>
                    have h1 := ih rest2
                    have h2 := findCloseCmt_countNl r2 rest2 hf
                    have h3 : countNl r2 ≤ countNl (c :: c2 :: r2) := by
                      show countNl r2 ≤
                        (if c == '\n' then 1 else 0) +
                          ((if c2 == '\n' then 1 else 0) + countNl r2)
                      omega
                    exact le_trans h1 (le_trans h2 h3)
                | none => exact Nat.le_refl _
              · rw [if_neg hc]
                have h1 := ih (c2 :: r2)
                show (if c == '\n' then 1 else 0) + countNl (blockStripF f (c2 :: r2)) ≤
                  (if c == '\n' then 1 else 0) + countNl (c2 :: r2)
                omega

theorem lsA_id : ∀ s : List Char, hasTwoSlash s = false →
    lsA 0 s = s ∧ ((s.head? ≠ some '/') → lsA 1 s = '/' :: s) := by
  intro s
  induction s with
  | nil => intro _; exact ⟨rfl, fun _ => rfl⟩
  | cons c r ih =>
      intro h
      by_cases hc : c == '/'
      · have hc2 : c = '/' := by simpa using hc
        subst hc2
        have hr : hasTwoSlash r = false ∧ r.head? ≠ some '/' := by
          cases r with
          | nil => exact ⟨rfl, by simp⟩
          | cons d t =>
              rw [hasTwoSlash, Bool.or_eq_false_iff, Bool.and_eq_false_iff] at h
              rcases h.1 with h2 | h2
              · simp at h2
              · refine ⟨h.2, ?_⟩
                intro hd
                rw [List.head?_cons, Option.some.injEq] at hd
                rw [hd] at h2
                simp at h2
        obtain ⟨ihid, ihsl⟩ := ih hr.1
        constructor
        · show lsA 1 r = '/' :: r
          exact ihsl hr.2
        · intro hhead
          simp at hhead
      · have hr : hasTwoSlash r = false := by
          cases r with
          | nil => rfl
          | cons d t =>
              rw [hasTwoSlash, Bool.or_eq_false_iff] at h
              exact h.2
        obtain ⟨ihid, _⟩ := ih hr
        constructor
        · show (if c == '/' then lsA 1 r else c :: lsA 0 r) = c :: r
          rw [if_neg (by simpa using hc), ihid]
        · intro _
          show (if c == '/' then lsA 2 r else '/' :: c :: lsA 0 r) = '/' :: c :: r
          rw [if_neg (by simpa using hc), ihid]

theorem blockStripF_id : ∀ (fuel : Nat) (s : List Char), s.length ≤ fuel →
    hasOpenCmt s = false → blockStripF fuel s = s := by
  intro fuel
  induction fuel with
  | zero =>
      intro s hl _
      rfl
  | succ f ih =>
      intro s hl h
      cases s with
      | nil => rfl
      | cons c r =>
          cases r with
          | nil => rfl
          | cons c2 r2 =>
              rw [hasOpenCmt, Bool.or_eq_false_iff] at h
              rw [blockStripF, if_neg (by simp [h.1])]
              rw [ih (c2 :: r2) (by simpa using Nat.le_of_succ_le_succ hl) h.2]

/-- C8 counterexample: the stripper does not preserve the line structure —
the line break spanned by the block comment in `"a/*\n*/b"` is removed along
with the comment; and it does not remove every `/* ... */` span — in
`"/* a // b */"` the line pass destroys the closing marker first, so the
block opener survives to the output. -/
theorem c8_counterexample :
    strip_candid_comments ("a/*\n*/b".data) = "ab".data ∧
    countNl ("a/*\n*/b".data) = 1 ∧
    countNl ("ab".data) = 0 ∧
    strip_candid_comments ("/* a // b */".data) = "/* a ".data := by
  refine ⟨by rfl, by rfl, by rfl, by rfl⟩

/-- C8 amended: the stripper is the pure total composition of the
line-comment pass followed by the block pass. The line pass removes every
`//`-to-end-of-line span (no `//` remains afterwards), preserves every line
break, and leaves text without `//` unchanged. The block pass then removes
each remaining `/* ... */` span together with the line breaks it spans
(never adding line breaks), and leaves text without `/*` unchanged; a block
opener whose closing marker was consumed by the line pass survives. -/
theorem c8_comment_stripper :
    (∀ s, strip_candid_comments s = blockStrip (lineStrip s)) ∧
    (∀ s, countNl (lineStrip s) = countNl s) ∧
    (∀ s, hasTwoSlash (lineStrip s) = false) ∧
    (∀ s, countNl (strip_candid_comments s) ≤ countNl s) ∧
    (∀ s, hasTwoSlash s = false → lineStrip s = s) ∧
    (∀ s, hasOpenCmt s = false → blockStrip s = s) := by
  refine ⟨fun s => rfl, fun s => lsA_countNl s 0, fun s => lsA_noTwoSlash s 0, ?_, ?_, ?_⟩
  · intro s
    calc countNl (strip_candid_comments s) ≤ countNl (lineStrip s) :=
          blockStripF_countNl _ _
      _ = countNl s := lsA_countNl s 0
  · intro s h
    exact (lsA_id s h).1
  · intro s h
    exact blockStripF_id _ s (Nat.le_succ _) h

/-- C8 witness: the hypothesis-bearing parts of `c8_comment_stripper`
applied to the comment-free text `"ab"`. -/
theorem c8_witness :
    hasTwoSlash ("ab".data) = false ∧ lineStrip ("ab".data) = "ab".data ∧
    hasOpenCmt ("ab".data) = false ∧ blockStrip ("ab".data) = "ab".data :=
  ⟨by rfl, c8_comment_stripper.2.2.2.2.1 ("ab".data) (by rfl),
    by rfl, c8_comment_stripper.2.2.2.2.2 ("ab".data) (by rfl)⟩

/-! ### Rehydration collisions inside arbitrary mappings (claim C10) -/

theorem foldl_alInsert_lookup_ne {α β : Type} [DecidableEq α] :
    ∀ (ps acc : List (α × β)) (k : α), (∀ p ∈ ps, p.1 ≠ k) →
    alLookup (ps.foldl (fun m p => alInsert m p.1 p.2) acc) k = alLookup acc k := by
  intro ps
  induction ps with
  | nil => intro acc k _; rfl
  | cons p rest ih =>
      intro acc k h
      rw [List.foldl_cons,
        ih (alInsert acc p.1 p.2) k (fun q hq => h q (List.mem_cons_of_mem _ hq)),
        alLookup_alInsert_ne acc p.1 k p.2 (h p (List.mem_cons_self _ _))]

theorem alBuild_decomp_lookup {α β : Type} [DecidableEq α]
    (pre mid post : List (α × β)) (k : α) (w1 w2 : β)
    (hpost : ∀ p ∈ post, p.1 ≠ k) :
    alLookup (alBuild (pre ++ (k, w1) :: mid ++ (k, w2) :: post)) k = some w2 := by
  unfold alBuild
  rw [List.foldl_append, List.foldl_cons, List.foldl_append, List.foldl_cons,
    foldl_alInsert_lookup_ne post _ k hpost]
  exact alLookup_alInsert_self _ k w2

theorem length_alInsert_le {α β : Type} [DecidableEq α] :
    ∀ (l : List (α × β)) (k : α) (v : β), (alInsert l k v).length ≤ l.length + 1 := by
  intro l
  induction l with
  | nil => intro k v; exact Nat.le_refl _
  | cons p rest ih =>
      intro k v
      obtain ⟨k2, v2⟩ := p
      by_cases hk : k2 = k
      · simp [alInsert, hk]
      · simp only [alInsert, if_neg hk, List.length_cons]
        have := ih k v
        omega

theorem length_alInsert_isSome {α β : Type} [DecidableEq α] :
    ∀ (l : List (α × β)) (k : α) (v : β), (alLookup l k).isSome = true →
    (alInsert l k v).length = l.length := by
  intro l
  induction l with
  | nil => intro k v h; simp [alLookup] at h
  | cons p rest ih =>
      intro k v h
      obtain ⟨k2, v2⟩ := p
      by_cases hk : k2 = k
      · simp [alInsert, hk]
      · rw [alLookup, if_neg hk] at h
        simp only [alInsert, if_neg hk, List.length_cons, ih k v h]

theorem foldl_alInsert_length_le {α β : Type} [DecidableEq α] :
    ∀ (ps acc : List (α × β)),
    (ps.foldl (fun m p => alInsert m p.1 p.2) acc).length ≤ acc.length + ps.length := by
  intro ps
  induction ps with
  | nil => intro acc; exact Nat.le_refl _
  | cons p rest ih =>
      intro acc
      rw [List.foldl_cons]
      have h1 := ih (alInsert acc p.1 p.2)
      have h2 := length_alInsert_le acc p.1 p.2
      simp only [List.length_cons]
      omega

theorem alBuild_decomp_length {α β : Type} [DecidableEq α]
    (pre mid post : List (α × β)) (k : α) (w1 w2 : β) :
    (alBuild (pre ++ (k, w1) :: mid ++ (k, w2) :: post)).length <
      (pre ++ (k, w1) :: mid ++ (k, w2) :: post).length := by
  have hs2 : (alLookup (alInsert (List.foldl (fun m p => alInsert m p.1 p.2) [] pre) k w1)
      k).isSome = true := by
    rw [alLookup_alInsert_self]
    rfl
  have hs3 : (alLookup (List.foldl (fun m p => alInsert m p.1 p.2)
      (alInsert (List.foldl (fun m p => alInsert m p.1 p.2) [] pre) k w1) mid)
      k).isSome = true :=
    foldl_alInsert_lookup_isSome mid _ k (Or.inl hs2)
  have l1 : (List.foldl (fun m p => alInsert m p.1 p.2) [] pre).length ≤ pre.length := by
    have h := foldl_alInsert_length_le pre ([] : List (α × β))
    simpa using h
  have l2 := length_alInsert_le (List.foldl (fun m p => alInsert m p.1 p.2) [] pre) k w1
  have l3 := foldl_alInsert_length_le mid
    (alInsert (List.foldl (fun m p => alInsert m p.1 p.2) [] pre) k w1)
  have l4 := length_alInsert_isSome (List.foldl (fun m p => alInsert m p.1 p.2)
    (alInsert (List.foldl (fun m p => alInsert m p.1 p.2) [] pre) k w1) mid) k w2 hs3
  have l5 := foldl_alInsert_length_le post
    (alInsert (List.foldl (fun m p => alInsert m p.1 p.2)
      (alInsert (List.foldl (fun m p => alInsert m p.1 p.2) [] pre) k w1) mid) k w2)
  unfold alBuild
  rw [List.foldl_append, List.foldl_cons, List.foldl_append, List.foldl_cons]
  simp only [List.length_append, List.length_cons]
  omega

theorem rehydrateD_eq_map (T : List (Nat × String)) :
    ∀ l : List (String × Value),
    rehydrateD T l = l.map (fun e => (rehydrateKey T e.1, rehydrateV T e.2)) := by
  intro l
  induction l with
  | nil => rfl
  | cons p rest ih =>
      obtain ⟨k, v⟩ := p
      simp only [rehydrateD, List.map_cons, ih]

/-- C10: for every mapping containing two distinct keys that rehydrate to
the same name (decomposed as `pre ++ (k1,v1) :: mid ++ (k2,v2) :: post`,
with `k2` the last key rehydrating to that name), the rehydrated mapping
holds a single entry under that name (its keys are pairwise distinct) whose
value is the rehydrated value of the later key `k2`; the earlier entry is
silently dropped, so the entry count strictly decreases. -/
theorem c10_collision_last_wins :
    ∀ (T : List (Nat × String)) (es pre mid post : List (String × Value))
      (k1 k2 nm : String) (v1 v2 : Value),
    es = pre ++ (k1, v1) :: mid ++ (k2, v2) :: post →
    k1 ≠ k2 → rehydrateKey T k1 = nm → rehydrateKey T k2 = nm →
    (∀ e ∈ post, rehydrateKey T e.1 ≠ nm) →
    ∃ res : List (String × Value),
      rehydrateV T (.dict es) = .dict res ∧
      keysUniqueB res = true ∧
      alLookup res nm = some (rehydrateV T v2) ∧
      res.length < es.length := by
  intro T es pre mid post k1 k2 nm v1 v2 hes _ h1 h2 hpost
  subst hes
  have hmap : rehydrateD T (pre ++ (k1, v1) :: mid ++ (k2, v2) :: post) =
      rehydrateD T pre ++ (nm, rehydrateV T v1) ::
        rehydrateD T mid ++ (nm, rehydrateV T v2) :: rehydrateD T post := by
    rw [rehydrateD_eq_map, rehydrateD_eq_map, rehydrateD_eq_map, rehydrateD_eq_map]
    simp only [List.map_append, List.map_cons, h1, h2]
  have hpost2 : ∀ p ∈ rehydrateD T post, p.1 ≠ nm := by
    rw [rehydrateD_eq_map]
    intro p hp
    obtain ⟨e, he, he2⟩ := List.mem_map.mp hp
    rw [← he2]
    exact hpost e he
  refine ⟨alBuild (rehydrateD T (pre ++ (k1, v1) :: mid ++ (k2, v2) :: post)),
    rfl, keysUniqueB_alBuild _, ?_, ?_⟩
  · rw [hmap]
    exact alBuild_decomp_lookup _ _ _ nm _ _ hpost2
  · rw [hmap]
    refine lt_of_lt_of_le (alBuild_decomp_length _ _ _ nm _ _) (le_of_eq ?_)
    rw [rehydrateD_eq_map, rehydrateD_eq_map, rehydrateD_eq_map]
    simp [List.length_append, List.length_cons, List.length_map]

/-- C10 witness: with the table entry for `"ok"`, the keys `"ok"` and its
hash-encoded form `"_24860"` rehydrate to the same name inside a five-entry
mapping with unrelated neighbours; the rehydrated mapping keeps one entry
under `"ok"` holding the later value, and shrinks from five entries to
four. -/
theorem c10_witness :
    ("ok" : String) ≠ "_24860" ∧
    rehydrateKey [(candid_hash "ok", "ok")] "ok" = "ok" ∧
    rehydrateKey [(candid_hash "ok", "ok")] "_24860" = "ok" ∧
    (∀ e ∈ [(("z" : String), Value.int 3)],
      rehydrateKey [(candid_hash "ok", "ok")] e.1 ≠ "ok") ∧
    (∃ res : List (String × Value),
      rehydrateV [(candid_hash "ok", "ok")]
          (.dict [("x", .int 1), ("ok", .str "first"), ("y", .int 2),
            ("_24860", Value.null), ("z", .int 3)]) = .dict res ∧
      keysUniqueB res = true ∧
      alLookup res "ok" = some (rehydrateV [(candid_hash "ok", "ok")] Value.null) ∧
      res.length < 5) :=
  ⟨by decide, by rfl, by rfl, by decide,
    c10_collision_last_wins [(candid_hash "ok", "ok")]
      [("x", .int 1), ("ok", .str "first"), ("y", .int 2), ("_24860", Value.null),
        ("z", .int 3)]
      [("x", .int 1)] [("y", .int 2)] [("z", .int 3)] "ok" "_24860" "ok"
      (.str "first") Value.null rfl (by decide) (by rfl) (by rfl) (by decide)⟩

end HAI
